import Mathlib

/-!
Verification of the two tic-tac-toe engines of `ttt-1973-vs-2024`:
the reconstructed Unix V4 learning program (`src/1973/ttt_reconstructed.c`)
and the rule-based program (`src/2024/ttt_optimal.c`).  Every definition is a
shallow embedding of the corresponding C function; global mutable state
(the board, the knowledge table) is passed explicitly.
-/

namespace TTT1973

/-- Cell values of the 9-cell board: EMPTY = 0, HUMAN (X) = 1, COMPUTER (O) = 2,
as in the `#define`s of `ttt_reconstructed.c`.  The spec calls these
Empty, MarkA, MarkB. -/
inductive Cell : Type
  | empty : Cell
  | human : Cell
  | computer : Cell
deriving DecidableEq, Repr

/-- Numeric value of a cell, exactly the C char stored in `board[]`. -/
def Cell.val : Cell → Nat
  | Cell.empty => 0
  | Cell.human => 1
  | Cell.computer => 2

/-- Embedding of `encode_board` (lines 48-58): `result = result * 3 + board[i]`
for `i = 0..8`, i.e. a left fold over the cells. -/
def encode_board (b : List Cell) : Nat :=
  b.foldl (fun r c => r * 3 + c.val) 0

/-- Inverse of `encode_board` on length-`n` boards: peels base-3 digits from the
least-significant end, which corresponds to the last cell. -/
def decodeAux : Nat → Nat → List Cell
  | 0, _ => []
  | n + 1, c => decodeAux n (c / 3) ++ [cellOfNat (c % 3)]
where
  cellOfNat : Nat → Cell
    | 0 => Cell.empty
    | 1 => Cell.human
    | _ => Cell.computer

/-- Inverse of `encode_board` on 9-cell boards. -/
def decode9 (c : Nat) : List Cell :=
  decodeAux 9 c

/-- The encoding formula as the spec words it (claim C2): value = Σ cell[i]·3^i,
so that cell 0 would be the least-significant base-3 digit.  Stated from the
spec, to be compared with `encode_board`, which is taken from the source. -/
def encode_spec_formula (b : List Cell) : Nat :=
  ((List.range 9).map (fun i => (b.getD i Cell.empty).val * 3 ^ i)).sum

/-- `MAX_KNOWLEDGE` (line 28). -/
def MAX_KNOWLEDGE : Nat := 200

/-- The knowledge table: list of (encoded board, weight) pairs, embedding the
`struct kentry knowledge[MAX_KNOWLEDGE]` array together with `nknowledge`. -/
abbrev Store := List (Nat × Int)

/-- Embedding of `lookup_weight` (lines 100-111) applied to a given board:
scan the table in order for the encoded board, return the first matching
weight, or 0 for an unknown position. -/
def lookup_weight (kn : Store) (b : List Cell) : Int :=
  match kn.find? (fun e => e.1 == encode_board b) with
  | some e => e.2
  | none => 0

/-- Index of the first entry holding `code`, the scan of `find_or_create`. -/
def scanIdx (code : Nat) : Store → Option Nat
  | [] => none
  | e :: t => if e.1 = code then some 0 else (scanIdx code t).map (· + 1)

/-- Embedding of `find_or_create` (lines 116-132): first-match linear scan;
on a miss, append a weight-0 entry if below `MAX_KNOWLEDGE`, else signal
fullness with index -1. -/
def find_or_create (kn : Store) (code : Nat) : Int × Store :=
  match scanIdx code kn with
  | some i => ((i : Int), kn)
  | none =>
    if kn.length < MAX_KNOWLEDGE then ((kn.length : Int), kn ++ [(code, 0)])
    else (-1, kn)

/-- Conversion of an `int` value to `signed char`, as the C assignment
`knowledge[idx].weight += delta` performs before the clamp: two's-complement
wrap-around into [-128, 127]. -/
def scharOfInt (x : Int) : Int :=
  (x + 128) % 256 - 128

/-- Embedding of the weight-adjustment step of `update_knowledge`
(lines 215-220): the narrowing `+=` wraps into signed-char range first, and
only then the two clamp comparisons run (on an already in-range value). -/
def adjust_weight (w delta : Int) : Int :=
  let t := scharOfInt (w + delta)
  if 127 < t then 127 else if t < -128 then -128 else t

/-- The weight adjustment as the spec words it: a saturating add clamping the
mathematical sum to [-128, 127].  Stated from the spec, to be compared with
`adjust_weight`, which is taken from the source. -/
def adjust_weight_spec (w delta : Int) : Int :=
  max (-128) (min 127 (w + delta))

/-- Apply the weight-adjustment step to the entry at index `i` of the table
(the C writes `knowledge[idx].weight` in place). -/
def adjustAt (kn : Store) (i : Nat) (delta : Int) : Store :=
  match kn.get? i with
  | some e => kn.set i (e.1, adjust_weight e.2 delta)
  | none => kn

/-- Game outcome passed to `update_knowledge`: the driver passes `COMPUTER`,
`0` (draw) or `HUMAN`. -/
inductive Outcome : Type
  | computerWin : Outcome
  | draw : Outcome
  | humanWin : Outcome
deriving DecidableEq, Repr

/-- The delta chosen by `update_knowledge` (lines 192-198): +3 win, +1 draw,
-2 loss. -/
def deltaFor : Outcome → Int
  | Outcome.computerWin => 3
  | Outcome.draw => 1
  | Outcome.humanWin => -2

/-- Replay loop of `update_knowledge` (lines 203-223): replay the move history
from an empty board, human on even indices, computer on odd indices; after
each computer move, find-or-create the resulting position and (when the table
had room) apply the weight adjustment. -/
def update_go (delta : Int) : List Cell → Nat → List Nat → Store → Store
  | _, _, [], kn => kn
  | b, i, m :: rest, kn =>
    let b' := b.set m (if i % 2 = 0 then Cell.human else Cell.computer)
    let kn' :=
      if i % 2 = 1 then
        let r := find_or_create kn (encode_board b')
        if 0 ≤ r.1 then adjustAt r.2 r.1.toNat delta else r.2
      else kn
    update_go delta b' (i + 1) rest kn'

/-- Embedding of `update_knowledge` (lines 184-224). -/
def update_knowledge (outcome : Outcome) (hist : List Nat) (kn : Store) : Store :=
  update_go (deltaFor outcome) (List.replicate 9 Cell.empty) 0 hist kn

/-- Reading byte `buf[2]` as `(signed char)`: values ≥ 128 become negative. -/
def toSigned (n : Nat) : Int :=
  if n < 128 then (n : Int) else (n : Int) - 256

/-- Converting a weight to the byte `buf[2] = knowledge[i].weight`
(unsigned-char conversion of a signed char). -/
def byteOfInt (w : Int) : Nat :=
  (w % 256).toNat

/-- Embedding of `load_knowledge` (lines 251-271): consume 3-byte records,
code = `buf[0] | (buf[1] << 8)`, weight = `(signed char)buf[2]`, while the
table is below `MAX_KNOWLEDGE`; a trailing partial record stops the loop. -/
def load_knowledge (n : Nat) : List Nat → Store
  | b0 :: b1 :: b2 :: rest =>
    if n < MAX_KNOWLEDGE then
      (b0 + 256 * b1, toSigned b2) :: load_knowledge (n + 1) rest
    else []
  | _ => []

/-- Embedding of `save_knowledge` (lines 276-296): 3 bytes per entry, 2-byte
little-endian code then the weight byte, no header or padding. -/
def save_knowledge (kn : Store) : List Nat :=
  kn.foldr (fun e acc => e.1 % 256 :: e.1 / 256 % 256 :: byteOfInt e.2 :: acc) []

/-- The fallback preference order of `compute_move` (line 169):
center, corners, edges. -/
def priority : List Nat := [4, 0, 2, 6, 8, 1, 3, 5, 7]

/-- One iteration of the candidate loop of `compute_move` (lines 152-164),
threading the board through the hypothetical apply/restore:
state is (board, best_move, best_weight). -/
def tryMove (kn : Store) (s : List Cell × Int × Int) (i : Nat) : List Cell × Int × Int :=
  if s.1.getD i Cell.empty = Cell.empty then
    let b1 := s.1.set i Cell.computer
    let w := lookup_weight kn b1
    let b2 := b1.set i Cell.empty
    if s.2.2 < w then (b2, (i : Int), w) else (b2, s.2.1, s.2.2)
  else s

/-- Embedding of `compute_move` (lines 140-176) in state-passing style:
returns the selected move together with the board as the function leaves it. -/
def compute_moveS (b : List Cell) (kn : Store) : Int × List Cell :=
  let s := (List.range 9).foldl (tryMove kn) (b, -1, -1000)
  let m :=
    if s.2.1 < 0 ∨ s.2.2 = 0 then
      ((priority.find? (fun p => s.1.getD p Cell.empty == Cell.empty)).map
        (fun p => (p : Int))).getD s.2.1
    else s.2.1
  (m, s.1)

/-- The move `compute_move` returns. -/
def compute_move (b : List Cell) (kn : Store) : Int :=
  (compute_moveS b kn).1

/-- Weight of the hypothetical board obtained by playing the computer mark
at cell `i` (what the candidate loop of `compute_move` looks up). -/
def hypWeight (b : List Cell) (kn : Store) (i : Nat) : Int :=
  lookup_weight kn (b.set i Cell.computer)

/-- Pure step of the candidate loop on the (best_move, best_weight) pair. -/
def stepBest (b : List Cell) (kn : Store) (s : Int × Int) (i : Nat) : Int × Int :=
  if b.getD i Cell.empty = Cell.empty then
    if s.2 < hypWeight b kn i then ((i : Int), hypWeight b kn i) else s
  else s

/-- Maximum hypothetical weight over the Empty cells of the board. -/
def maxW (b : List Cell) (kn : Store) : Int :=
  match (List.range 9).filter (fun i => b.getD i Cell.empty == Cell.empty) with
  | [] => 0
  | i :: t => t.foldl (fun a j => max a (hypWeight b kn j)) (hypWeight b kn i)

/-- Move selection as claim C4 words it: fall back to the fixed preference
order exactly when every candidate weight is 0, otherwise take the
first-maximum candidate.  Stated from the claim, to be compared with
`compute_move`, which is taken from the source. -/
def select_move_claimed (b : List Cell) (kn : Store) : Int :=
  let cands := (List.range 9).filter (fun i => b.getD i Cell.empty == Cell.empty)
  if cands.all (fun i => hypWeight b kn i == 0) then
    match priority.find? (fun p => b.getD p Cell.empty == Cell.empty) with
    | some p => (p : Int)
    | none => -1
  else
    (cands.foldl (stepBest b kn) (-1, -1000)).1

end TTT1973

namespace TTT2024

/-- Squares of the 2024 board: ' ', 'X' or 'O' in `ttt_optimal.c`. -/
inductive Sq : Type
  | e : Sq
  | x : Sq
  | o : Sq
deriving DecidableEq, Repr

/-- The board of `ttt_optimal.c`: 10 slots, positions 1-9, index 0 unused. -/
abbrev Board := List Sq

/-- The 8 winning lines (lines 19-23), 1-indexed. -/
def wins : List (List Nat) :=
  [[1, 2, 3], [4, 5, 6], [7, 8, 9],
   [1, 4, 7], [2, 5, 8], [3, 6, 9],
   [1, 5, 9], [3, 5, 7]]

/-- Embedding of `check_win` (lines 26-35). -/
def check_win (b : Board) (player : Sq) : Bool :=
  wins.any (fun l => l.all (fun pos => b.getD pos Sq.e == player))

/-- Inner loop of `find_winning_move` (lines 40-45): count the player's cells
on the line and remember the last empty position seen. -/
def line_scan (b : Board) (player : Sq) (l : List Nat) : Nat × Nat :=
  l.foldl
    (fun s pos =>
      if b.getD pos Sq.e = player then (s.1 + 1, s.2)
      else if b.getD pos Sq.e = Sq.e then (s.1, pos)
      else s)
    (0, 0)

/-- First-match loop of `find_winning_move` over the winning lines. -/
def fwmAux (b : Board) (player : Sq) : List (List Nat) → Nat
  | [] => 0
  | l :: rest =>
    let s := line_scan b player l
    if s.1 = 2 ∧ 0 < s.2 then s.2 else fwmAux b player rest

/-- Embedding of `find_winning_move` (lines 38-49): the completing square of
the first line on which `player` has two squares and the third is empty,
or 0 if none. -/
def find_winning_move (b : Board) (player : Sq) : Nat :=
  fwmAux b player wins

/-- Corner squares (line 72). -/
def corners : List Nat := [1, 3, 7, 9]

/-- Point-symmetric opposites of `corners` (line 73). -/
def opposite : List Nat := [9, 7, 3, 1]

/-- Edge squares (line 84). -/
def edges : List Nat := [2, 4, 6, 8]

/-- Embedding of `best_move` (lines 59-90): the Newell & Simon style cascade
win / block / center / opposite corner / first corner / first edge, returning
0 when no square is available. -/
def best_move (b : Board) (me opponent : Sq) : Nat :=
  let w1 := find_winning_move b me
  if 0 < w1 then w1
  else
    let w2 := find_winning_move b opponent
    if 0 < w2 then w2
    else if b.getD 5 Sq.e = Sq.e then 5
    else
      match (corners.zip opposite).find?
          (fun p => b.getD p.1 Sq.e == opponent && b.getD p.2 Sq.e == Sq.e) with
      | some p => p.2
      | none =>
        match corners.find? (fun c => b.getD c Sq.e == Sq.e) with
        | some c => c
        | none =>
          match edges.find? (fun c => b.getD c Sq.e == Sq.e) with
          | some c => c
          | none => 0

/-- The empty board: all nine playable squares empty. -/
def start : Board := List.replicate 10 Sq.e

/-- Squares 1-9 that are still empty. -/
def legal (b : Board) : List Nat :=
  (List.range' 1 9).filter (fun i => b.getD i Sq.e == Sq.e)

/-- True iff none of squares 1-9 is empty. -/
def isFull (b : Board) : Bool :=
  (legal b).isEmpty

/-- Play out a game in which the strategy plays `best_move` for mark `me` at
every one of its turns and the opponent plays the successive squares of `ms`;
`strategyTurn` says who moves next.  Returns `true` iff the opponent at some
point completes a winning line (the strategy lost).  A win or a full board
ends the game, mirroring the driver loop of `ttt_optimal.c`; an illegal or
missing opponent move also ends it (no loss). -/
def lostGame (me opponent : Sq) : Nat → Bool → Board → List Nat → Bool
  | 0, _, _, _ => false
  | f + 1, strategyTurn, b, ms =>
    if strategyTurn then
      let m := best_move b me opponent
      let b' := b.set m me
      if check_win b' me then false
      else if isFull b' then false
      else lostGame me opponent f false b' ms
    else
      match ms with
      | [] => false
      | m :: rest =>
        if m ∈ legal b then
          let b' := b.set m opponent
          if check_win b' opponent then true
          else if isFull b' then false
          else lostGame me opponent f true b' rest
        else false

end TTT2024

namespace TTT1973

theorem Cell.val_lt_three (c : Cell) : c.val < 3 := by
  cases c <;> simp [Cell.val]

theorem cellOfNat_val (c : Cell) : decodeAux.cellOfNat c.val = c := by
  cases c <;> rfl

theorem encode_append_single (l : List Cell) (d : Cell) :
    encode_board (l ++ [d]) = 3 * encode_board l + d.val := by
  simp [encode_board, List.foldl_append]
  ring

theorem enc_dec (b : List Cell) : decodeAux b.length (encode_board b) = b := by
  induction b using List.reverseRecOn with
  | nil => rfl
  | append_singleton l d ih =>
    have hv := Cell.val_lt_three d
    rw [encode_append_single, List.length_append]
    show decodeAux (l.length + 1) (3 * encode_board l + d.val) = l ++ [d]
    rw [decodeAux]
    have h1 : (3 * encode_board l + d.val) / 3 = encode_board l := by omega
    have h2 : (3 * encode_board l + d.val) % 3 = d.val := by omega
    rw [h1, h2, ih, cellOfNat_val]

theorem enc_lt (b : List Cell) : encode_board b < 3 ^ b.length := by
  induction b using List.reverseRecOn with
  | nil => simp [encode_board]
  | append_singleton l d ih =>
    have hv := Cell.val_lt_three d
    rw [encode_append_single, List.length_append]
    simp only [List.length_singleton, pow_succ]
    generalize 3 ^ l.length = A at ih ⊢
    omega

theorem dec_enc : ∀ (n c : Nat), c < 3 ^ n → encode_board (decodeAux n c) = c := by
  intro n
  induction n with
  | zero =>
    intro c hc
    have hc0 : c = 0 := by simpa using hc
    subst hc0; rfl
  | succ n ih =>
    intro c hc
    rw [pow_succ] at hc
    show encode_board (decodeAux n (c / 3) ++ [decodeAux.cellOfNat (c % 3)]) = c
    rw [encode_append_single]
    have hdiv : c / 3 < 3 ^ n := by
      generalize 3 ^ n = A at hc ⊢
      omega
    rw [ih _ hdiv]
    have hm : c % 3 = 0 ∨ c % 3 = 1 ∨ c % 3 = 2 := by omega
    have hval : (decodeAux.cellOfNat (c % 3)).val = c % 3 := by
      rcases hm with h | h | h <;> rw [h] <;> rfl
    rw [hval]
    omega

theorem set_getD_self (l : List Cell) : ∀ i : Nat,
    l.getD i Cell.empty = Cell.empty → l.set i Cell.empty = l := by
  induction l with
  | nil => intro i _; rfl
  | cons h t ih =>
    intro i hi
    cases i with
    | zero =>
      rw [List.getD_cons_zero] at hi
      rw [List.set_cons_zero, hi]
    | succ i =>
      rw [List.getD_cons_succ] at hi
      rw [List.set_cons_succ, ih i hi]

theorem tryMove_bd (kn : Store) (s : List Cell × Int × Int) (i : Nat) :
    (tryMove kn s i).1 = s.1 := by
  unfold tryMove
  by_cases h : s.1.getD i Cell.empty = Cell.empty
  · rw [if_pos h]
    show (if s.2.2 < lookup_weight kn (s.1.set i Cell.computer) then
        ((s.1.set i Cell.computer).set i Cell.empty, (i : Int),
          lookup_weight kn (s.1.set i Cell.computer))
      else ((s.1.set i Cell.computer).set i Cell.empty, s.2.1, s.2.2)).1 = s.1
    by_cases hw : s.2.2 < lookup_weight kn (s.1.set i Cell.computer)
    · rw [if_pos hw]
      show (s.1.set i Cell.computer).set i Cell.empty = s.1
      rw [List.set_set, set_getD_self _ _ h]
    · rw [if_neg hw]
      show (s.1.set i Cell.computer).set i Cell.empty = s.1
      rw [List.set_set, set_getD_self _ _ h]
  · rw [if_neg h]

theorem tryMove_snd (kn : Store) (s : List Cell × Int × Int) (i : Nat) :
    (tryMove kn s i).2 = stepBest s.1 kn s.2 i := by
  unfold tryMove stepBest
  by_cases h : s.1.getD i Cell.empty = Cell.empty
  · rw [if_pos h, if_pos h]
    show (if s.2.2 < lookup_weight kn (s.1.set i Cell.computer) then
        ((s.1.set i Cell.computer).set i Cell.empty, (i : Int),
          lookup_weight kn (s.1.set i Cell.computer))
      else ((s.1.set i Cell.computer).set i Cell.empty, s.2.1, s.2.2)).2 =
      if s.2.2 < hypWeight s.1 kn i then ((i : Int), hypWeight s.1 kn i) else s.2
    by_cases hw : s.2.2 < lookup_weight kn (s.1.set i Cell.computer)
    · rw [if_pos hw, if_pos (show s.2.2 < hypWeight s.1 kn i from hw)]
      rfl
    · rw [if_neg hw, if_neg (show ¬s.2.2 < hypWeight s.1 kn i from hw)]
  · rw [if_neg h, if_neg h]

theorem foldl_tryMove (kn : Store) : ∀ (l : List Nat) (s : List Cell × Int × Int),
    l.foldl (tryMove kn) s = (s.1, l.foldl (stepBest s.1 kn) s.2) := by
  intro l
  induction l with
  | nil => intro s; rfl
  | cons x t ih =>
    intro s
    rw [List.foldl_cons, ih (tryMove kn s x), tryMove_bd, tryMove_snd, List.foldl_cons]

/-- Claim C9: `compute_move` leaves the real board unchanged — the
state-passing embedding returns the board exactly as it received it, even
though every candidate move is hypothetically applied and then restored. -/
theorem compute_move_preserves_board (b : List Cell) (kn : Store) :
    (compute_moveS b kn).2 = b := by
  unfold compute_moveS
  rw [foldl_tryMove]

/-- Claim C3: refuting evaluation (code bug).  The weight-adjustment step at
starting weight 127 with delta +3 yields -126, not the saturated 127: the
narrowing signed-char `+=` wraps before the clamp comparisons run, and on an
already-narrowed value the clamp is dead code.  So a positive delta decreased
the stored weight. -/
theorem adjust_weight_wraps :
    adjust_weight 127 3 = -126 ∧ adjust_weight_spec 127 3 = 127 ∧
      adjust_weight 127 3 < 127 := by
  decide

/-- Claim C7: refuting evaluation (code bug).  Replaying the 3-move history
[0, 4, 1] (human 0, computer 4, human 1) touches exactly the one board after
the computer's move, code 6723; recording ComputerWin on a store holding
weight 127 for that board wraps the weight to -126 instead of increasing it
by 3 saturated at 127. -/
theorem update_knowledge_wraps :
    update_knowledge Outcome.computerWin [0, 4, 1] [(6723, 127)] = [(6723, -126)] ∧
      adjust_weight_spec 127 3 = 127 ∧ (-126 : Int) ≠ 127 := by
  decide

/-- Claim C2: counterexample.  On the board with MarkA (human, value 1) in
cell 0 and the rest Empty, `encode_board` returns 3^8 = 6561, not the value 1
demanded by the spec formula Σ cell[i]·3^i: cell 0 is the most-significant
base-3 digit, not the least-significant one. -/
theorem encode_board_not_spec_formula :
    encode_board (Cell.human :: List.replicate 8 Cell.empty) = 6561 ∧
      encode_spec_formula (Cell.human :: List.replicate 8 Cell.empty) = 1 ∧
      (6561 : Nat) ≠ 1 := by
  decide

/-- Claim C4: counterexample.  On the empty board with the single knowledge
entry (13122, -5) — weight -5 for the position after playing cell 0 — the
claimed selection rule returns 1 (lowest-indexed maximum among the weights
-5, 0, ..., 0; not every weight is 0, so no fallback), but `compute_move`
returns 4: the code falls back whenever the maximum weight equals 0. -/
theorem compute_move_not_as_claimed :
    compute_move (List.replicate 9 Cell.empty) [(13122, -5)] = 4 ∧
      select_move_claimed (List.replicate 9 Cell.empty) [(13122, -5)] = 1 ∧
      (4 : Int) ≠ 1 := by
  decide

/-- Claim C5: counterexample.  Loading the single 3-byte record FF FF 00
places the entry (65535, 0) in the store: 65535 exceeds 19682, yet the record
is neither skipped nor does the load fail — `load_knowledge` performs no
range validation at all. -/
theorem load_knowledge_out_of_range :
    load_knowledge 0 [255, 255, 0] = [(65535, 0)] ∧ 19682 < 65535 := by
  decide

/-- Claim C2 (amended): `encode_board` returns Σ cell[i]·3^(8-i) — cell 0 is
the MOST-significant base-3 digit and cell 8 the least-significant — with
Empty = 0, MarkA = 1, MarkB = 2, and the encoding is a bijection onto
[0, 19682] with two-sided inverse `decode9`. -/
theorem encode_board_amended
    (c0 c1 c2 c3 c4 c5 c6 c7 c8 : Cell) (b : List Cell) (hb : b.length = 9)
    (c : Nat) (hc : c ≤ 19682) :
    encode_board [c0, c1, c2, c3, c4, c5, c6, c7, c8] =
        c0.val * 3 ^ 8 + c1.val * 3 ^ 7 + c2.val * 3 ^ 6 + c3.val * 3 ^ 5 +
          c4.val * 3 ^ 4 + c5.val * 3 ^ 3 + c6.val * 3 ^ 2 + c7.val * 3 + c8.val ∧
      decode9 (encode_board b) = b ∧
      encode_board b ≤ 19682 ∧
      encode_board (decode9 c) = c := by
  refine ⟨?_, ?_, ?_, ?_⟩
  · simp [encode_board]
    ring
  · have h := enc_dec b
    rw [hb] at h
    exact h
  · have h := enc_lt b
    rw [hb] at h
    have h39 : (3 : Nat) ^ 9 = 19683 := by norm_num
    omega
  · refine dec_enc 9 c ?_
    have h39 : (3 : Nat) ^ 9 = 19683 := by norm_num
    omega

/-- Witness for claim C2's amended theorem at concrete inputs. -/
theorem encode_board_amended_witness :
    encode_board (decode9 6723) = 6723 :=
  (encode_board_amended Cell.empty Cell.empty Cell.empty Cell.empty Cell.empty
    Cell.empty Cell.empty Cell.empty Cell.empty (List.replicate 9 Cell.empty)
    (by decide) 6723 (by decide)).2.2.2

/-- Claim C5 (amended): `load_knowledge` performs no range validation — every
complete 3-byte record read below capacity is loaded with code b0 + 256·b1,
which can be any value up to 65535, codes above 19682 included; loading is a
total function (it never crashes), a trailing partial record is ignored and
at most 200 − n entries are produced from position n. -/
theorem load_knowledge_amended : ∀ (bytes : List Nat) (n : Nat),
    (∀ x ∈ bytes, x < 256) →
    (∀ e ∈ load_knowledge n bytes, e.1 ≤ 65535) ∧
      (load_knowledge n bytes).length ≤ 200 - n := by
  suffices h : ∀ (L : Nat) (bytes : List Nat), bytes.length ≤ L → ∀ n : Nat,
      (∀ x ∈ bytes, x < 256) →
      (∀ e ∈ load_knowledge n bytes, e.1 ≤ 65535) ∧
        (load_knowledge n bytes).length ≤ 200 - n by
    intro bytes n hv
    exact h bytes.length bytes le_rfl n hv
  intro L
  induction L with
  | zero =>
    intro bytes hb n _
    have hnil : bytes = [] := List.eq_nil_of_length_eq_zero (Nat.le_zero.mp hb)
    subst hnil
    exact ⟨by intro e he; simp [load_knowledge] at he, by simp [load_knowledge]⟩
  | succ L ihL =>
    intro bytes hb n hv
    rcases bytes with - | ⟨b0, - | ⟨b1, - | ⟨b2, rest⟩⟩⟩
    · exact ⟨by intro e he; simp [load_knowledge] at he, by simp [load_knowledge]⟩
    · exact ⟨by intro e he; simp [load_knowledge] at he, by simp [load_knowledge]⟩
    · exact ⟨by intro e he; simp [load_knowledge] at he, by simp [load_knowledge]⟩
    · rw [load_knowledge]
      by_cases hn : n < MAX_KNOWLEDGE
      · rw [if_pos hn]
        have hlen : rest.length ≤ L := by
          simp only [List.length_cons] at hb
          omega
        have hrest := ihL rest hlen (n + 1) (fun x hx => hv x (by simp [hx]))
        constructor
        · intro e he
          rcases List.mem_cons.mp he with rfl | he
          · have h0 := hv b0 (by simp)
            have h1 := hv b1 (by simp)
            simp only []
            omega
          · exact hrest.1 e he
        · simp only [List.length_cons]
          have h2 := hrest.2
          unfold MAX_KNOWLEDGE at hn
          omega
      · rw [if_neg hn]
        exact ⟨by intro e he; simp at he, by simp⟩

/-- Witness for claim C5's amended theorem at a concrete byte stream. -/
theorem load_knowledge_amended_witness :
    (∀ e ∈ load_knowledge 0 [255, 255, 0], e.1 ≤ 65535) ∧
      (load_knowledge 0 [255, 255, 0]).length ≤ 200 - 0 :=
  load_knowledge_amended [255, 255, 0] 0 (by decide)

theorem save_length (kn : Store) : (save_knowledge kn).length = 3 * kn.length := by
  induction kn with
  | nil => rfl
  | cons e t ih =>
    simp only [save_knowledge, List.foldr_cons, List.length_cons] at ih ⊢
    omega

theorem byte_roundtrip (w : Int) (h1 : -128 ≤ w) (h2 : w ≤ 127) :
    toSigned (byteOfInt w) = w := by
  unfold toSigned byteOfInt
  split <;> omega

theorem load_save (kn : Store) : ∀ n : Nat, n + kn.length ≤ MAX_KNOWLEDGE →
    (∀ e ∈ kn, e.1 < 65536 ∧ -128 ≤ e.2 ∧ e.2 ≤ 127) →
    load_knowledge n (save_knowledge kn) = kn := by
  induction kn with
  | nil => intro n _ _; rfl
  | cons e t ih =>
    intro n hn hv
    show load_knowledge n (e.1 % 256 :: e.1 / 256 % 256 :: byteOfInt e.2 ::
      save_knowledge t) = e :: t
    rw [load_knowledge]
    have hn200 : n < MAX_KNOWLEDGE := by
      simp only [List.length_cons] at hn
      omega
    rw [if_pos hn200]
    have he := hv e (by simp)
    have hcode : e.1 % 256 + 256 * (e.1 / 256 % 256) = e.1 := by
      have := he.1
      omega
    have hw : toSigned (byteOfInt e.2) = e.2 := byte_roundtrip e.2 he.2.1 he.2.2
    rw [hcode, hw, ih (n + 1) (by simp only [List.length_cons] at hn; omega)
      (fun x hx => hv x (by simp [hx]))]

/-- Claim C6: persistence round trip.  For every store of at most 200 entries
whose codes fit the 16-bit field and whose weights fit the signed-char field,
loading the bytes produced by saving it returns exactly the original entry
list (hence the same entry set); each saved record is exactly 3 bytes — the
byte stream has length 3·n with a 2-byte little-endian code then a 1-byte
two's-complement weight, no header or padding. -/
theorem save_load_roundtrip (kn : Store) (hlen : kn.length ≤ 200)
    (hv : ∀ e ∈ kn, e.1 < 65536 ∧ -128 ≤ e.2 ∧ e.2 ≤ 127) :
    load_knowledge 0 (save_knowledge kn) = kn ∧
      (save_knowledge kn).length = 3 * kn.length :=
  ⟨load_save kn 0 (by unfold MAX_KNOWLEDGE; omega) hv, save_length kn⟩

/-- Witness for claim C6's theorem at a concrete store. -/
theorem save_load_roundtrip_witness :
    load_knowledge 0 (save_knowledge [(6723, 127), (0, -5)]) =
      [(6723, 127), (0, -5)] :=
  (save_load_roundtrip [(6723, 127), (0, -5)] (by decide) (by decide)).1

theorem scanIdx_none (code : Nat) : ∀ kn : Store,
    scanIdx code kn = none ↔ ∀ e ∈ kn, e.1 ≠ code := by
  intro kn
  induction kn with
  | nil => simp [scanIdx]
  | cons e t ih =>
    by_cases h : e.1 = code <;> simp [scanIdx, h, ih]

theorem scanIdx_some (code : Nat) : ∀ (kn : Store) (i : Nat),
    scanIdx code kn = some i → i < kn.length ∧ (kn.getD i (0, 0)).1 = code := by
  intro kn
  induction kn with
  | nil => intro i h; simp [scanIdx] at h
  | cons e t ih =>
    intro i h
    by_cases he : e.1 = code
    · simp [scanIdx, he] at h
      subst h
      simp [he]
    · simp only [scanIdx, if_neg he, Option.map_eq_some'] at h
      obtain ⟨j, hj, rfl⟩ := h
      have hjt := ih j hj
      refine ⟨by simp only [List.length_cons]; omega, ?_⟩
      rw [List.getD_cons_succ]
      exact hjt.2

/-- Claim C8: `find_or_create` returns the handle of an existing entry with
the requested code when present, leaving the store unchanged; when absent and
below the capacity of 200 it appends a fresh entry with weight 0 and returns
its handle; when absent and full it returns -1 without modifying the store.
The original entries always form a prefix of the result (entries are never
removed), and distinct codes stay distinct. -/
theorem find_or_create_correct (kn : Store) (code : Nat) :
    ((∃ e ∈ kn, e.1 = code) →
        (find_or_create kn code).2 = kn ∧
          ∃ i : Nat, (find_or_create kn code).1 = (i : Int) ∧ i < kn.length ∧
            (kn.getD i (0, 0)).1 = code) ∧
      ((∀ e ∈ kn, e.1 ≠ code) → kn.length < MAX_KNOWLEDGE →
        find_or_create kn code = ((kn.length : Int), kn ++ [(code, 0)])) ∧
      ((∀ e ∈ kn, e.1 ≠ code) → MAX_KNOWLEDGE ≤ kn.length →
        find_or_create kn code = (-1, kn)) ∧
      kn <+: (find_or_create kn code).2 ∧
      ((kn.map Prod.fst).Nodup → ((find_or_create kn code).2.map Prod.fst).Nodup) := by
  cases hscan : scanIdx code kn with
  | some i =>
    have hi := scanIdx_some code kn i hscan
    have habs : ¬∀ e ∈ kn, e.1 ≠ code := by
      intro habs
      rw [(scanIdx_none code kn).mpr habs] at hscan
      exact Option.noConfusion hscan
    have hfc : find_or_create kn code = ((i : Int), kn) := by
      simp only [find_or_create, hscan]
    rw [hfc]
    exact ⟨fun _ => ⟨rfl, i, rfl, hi.1, hi.2⟩, fun h _ => absurd h habs,
      fun h _ => absurd h habs, List.prefix_refl kn, fun h => h⟩
  | none =>
    have habs : ∀ e ∈ kn, e.1 ≠ code := (scanIdx_none code kn).mp hscan
    by_cases hlen : kn.length < MAX_KNOWLEDGE
    · have hcm : code ∉ kn.map Prod.fst := by
        intro hm
        obtain ⟨e, hek, hee⟩ := List.mem_map.mp hm
        exact habs e hek hee
      refine ⟨?_, fun _ _ => ?_, fun _ hge => absurd hlen (not_lt.mpr hge), ?_, ?_⟩
      · intro ⟨e, hek, hee⟩
        exact absurd hee (habs e hek)
      · simp only [find_or_create, hscan, if_pos hlen]
      · simp only [find_or_create, hscan, if_pos hlen]
        exact List.prefix_append kn [(code, 0)]
      · simp only [find_or_create, hscan, if_pos hlen]
        intro hnd
        rw [List.map_append, List.nodup_append]
        refine ⟨hnd, List.nodup_singleton code, ?_⟩
        intro a ha hb
        simp only [List.map_cons, List.map_nil, List.mem_singleton] at hb
        subst hb
        exact hcm ha
    · refine ⟨?_, fun _ hlt => absurd hlt hlen, fun _ _ => ?_, ?_, ?_⟩
      · intro ⟨e, hek, hee⟩
        exact absurd hee (habs e hek)
      · simp only [find_or_create, hscan, if_neg hlen]
      · simp only [find_or_create, hscan, if_neg hlen]
        exact List.prefix_refl kn
      · simp only [find_or_create, hscan, if_neg hlen]
        exact fun h => h

/-- Witness for claim C8's theorem at a concrete store and code. -/
theorem find_or_create_correct_witness :
    find_or_create [] 5 = ((0 : Int), [(5, 0)]) := by
  have h := (find_or_create_correct [] 5).2.1 (by simp) (by norm_num [MAX_KNOWLEDGE])
  simpa using h

end TTT1973

namespace TTT2024

/-- Claim C1: refuting evaluation (code bug).  Playing `best_move` as O from
the empty board against the legal opponent sequence X: 1, 9, 7, 4, the
strategy answers 5 (center), 3 (first free corner), 8 (blocks row 7-8-9); X's
move 7 created the double threat 7-8-9 / 1-4-7, and X completes the winning
line 1-4-7 with its fourth move.  The cascade has no fork defense, so the
strategy reaches a terminal board on which the opponent holds a completed
winning line — contradicting the code's own "never loses" documentation. -/
theorem best_move_loses_fork_game :
    lostGame Sq.o Sq.x 9 false start [1, 9, 7, 4] = true := by
  decide

end TTT2024

namespace TTT1973

theorem lookup_weight_bounds (kn : Store) (b : List Cell)
    (hv : ∀ e ∈ kn, -128 ≤ e.2 ∧ e.2 ≤ 127) :
    -128 ≤ lookup_weight kn b ∧ lookup_weight kn b ≤ 127 := by
  unfold lookup_weight
  cases hf : kn.find? (fun e => e.1 == encode_board b) with
  | none => norm_num
  | some e => exact hv e (List.mem_of_find?_eq_some hf)

theorem foldl_stepBest_skip (b : List Cell) (kn : Store) :
    ∀ (l : List Nat) (s : Int × Int),
    (∀ i ∈ l, ¬b.getD i Cell.empty = Cell.empty) →
    l.foldl (stepBest b kn) s = s := by
  intro l
  induction l with
  | nil => intro s _; rfl
  | cons x t ih =>
    intro s hl
    rw [List.foldl_cons]
    have hx : ¬b.getD x Cell.empty = Cell.empty := hl x (by simp)
    have hs : stepBest b kn s x = s := by
      unfold stepBest
      rw [if_neg hx]
    rw [hs, ih s (fun i hi => hl i (by simp [hi]))]

theorem le_foldl_max (f : Nat → Int) : ∀ (t : List Nat) (a : Int),
    a ≤ t.foldl (fun x j => max x (f j)) a := by
  intro t
  induction t with
  | nil => intro a; exact le_refl a
  | cons x t ih =>
    intro a
    rw [List.foldl_cons]
    exact le_trans (le_max_left a (f x)) (ih (max a (f x)))

theorem mem_le_foldl_max (f : Nat → Int) : ∀ (t : List Nat) (a : Int) (j : Nat),
    j ∈ t → f j ≤ t.foldl (fun x j => max x (f j)) a := by
  intro t
  induction t with
  | nil => intro a j hj; exact absurd hj (List.not_mem_nil j)
  | cons x t ih =>
    intro a j hj
    rw [List.foldl_cons]
    rcases List.mem_cons.mp hj with rfl | hj
    · exact le_trans (le_max_right a (f j)) (le_foldl_max f t _)
    · exact ih _ j hj

theorem foldl_max_le (f : Nat → Int) : ∀ (t : List Nat) (a c : Int), a ≤ c →
    (∀ j ∈ t, f j ≤ c) → t.foldl (fun x j => max x (f j)) a ≤ c := by
  intro t
  induction t with
  | nil => intro a c hac _; exact hac
  | cons x t ih =>
    intro a c hac hall
    rw [List.foldl_cons]
    exact ih _ c (max_le hac (hall x (by simp))) (fun j hj => hall j (by simp [hj]))

theorem maxW_eq (b : List Cell) (kn : Store) (i : Nat) (hi9 : i < 9)
    (hie : b.getD i Cell.empty = Cell.empty)
    (hall : ∀ j, j < 9 → b.getD j Cell.empty = Cell.empty →
      hypWeight b kn j ≤ hypWeight b kn i) :
    maxW b kn = hypWeight b kn i := by
  have him : i ∈ (List.range 9).filter
      (fun j => b.getD j Cell.empty == Cell.empty) := by
    rw [List.mem_filter, List.mem_range]
    exact ⟨hi9, by simp only [beq_iff_eq]; exact hie⟩
  have hmem : ∀ j ∈ (List.range 9).filter
      (fun j => b.getD j Cell.empty == Cell.empty),
      j < 9 ∧ b.getD j Cell.empty = Cell.empty := by
    intro j hj
    rw [List.mem_filter, List.mem_range] at hj
    have hj2 := hj.2
    simp only [beq_iff_eq] at hj2
    exact ⟨hj.1, hj2⟩
  unfold maxW
  cases hfl : (List.range 9).filter (fun j => b.getD j Cell.empty == Cell.empty) with
  | nil =>
    rw [hfl] at him
    exact absurd him (List.not_mem_nil i)
  | cons c t =>
    rw [hfl] at him hmem
    show t.foldl (fun a j => max a (hypWeight b kn j)) (hypWeight b kn c) =
      hypWeight b kn i
    apply le_antisymm
    · exact foldl_max_le (fun j => hypWeight b kn j) t (hypWeight b kn c)
        (hypWeight b kn i)
        (hall c (hmem c (by simp)).1 (hmem c (by simp)).2)
        (fun j hj => hall j (hmem j (by simp [hj])).1 (hmem j (by simp [hj])).2)
    · rcases List.mem_cons.mp him with rfl | hit
      · exact le_foldl_max (fun j => hypWeight b kn j) t (hypWeight b kn i)
      · exact mem_le_foldl_max (fun j => hypWeight b kn j) t (hypWeight b kn c) i hit

theorem foldBest_spec (b : List Cell) (kn : Store) : ∀ (l : List Nat),
    l.Pairwise (· < ·) → ∀ s : Int × Int,
    (l.foldl (stepBest b kn) s = s ∧
        ∀ i ∈ l, b.getD i Cell.empty = Cell.empty → hypWeight b kn i ≤ s.2) ∨
      (∃ i ∈ l, b.getD i Cell.empty = Cell.empty ∧
        l.foldl (stepBest b kn) s = ((i : Int), hypWeight b kn i) ∧
        s.2 < hypWeight b kn i ∧
        (∀ j ∈ l, b.getD j Cell.empty = Cell.empty →
          hypWeight b kn j ≤ hypWeight b kn i) ∧
        (∀ j ∈ l, b.getD j Cell.empty = Cell.empty →
          hypWeight b kn j = hypWeight b kn i → i ≤ j)) := by
  intro l
  induction l with
  | nil =>
    intro _ s
    left
    exact ⟨rfl, by simp⟩
  | cons x t ih =>
    intro hp s
    have hpx : ∀ j ∈ t, x < j := (List.pairwise_cons.mp hp).1
    have hpt : t.Pairwise (· < ·) := (List.pairwise_cons.mp hp).2
    rw [List.foldl_cons]
    by_cases hx : b.getD x Cell.empty = Cell.empty
    · by_cases hw : s.2 < hypWeight b kn x
      · have hstep : stepBest b kn s x = ((x : Int), hypWeight b kn x) := by
          unfold stepBest
          rw [if_pos hx, if_pos hw]
        rw [hstep]
        rcases ih hpt ((x : Int), hypWeight b kn x) with ⟨heq, hall⟩ |
          ⟨i, hit, hie, heq, hlt, hall, hfirst⟩
        · right
          refine ⟨x, by simp, hx, heq, hw, ?_, ?_⟩
          · intro j hj hje
            rcases List.mem_cons.mp hj with rfl | hj
            · exact le_refl _
            · exact hall j hj hje
          · intro j hj hje hjw
            rcases List.mem_cons.mp hj with rfl | hj
            · exact le_refl _
            · exact Nat.le_of_lt (hpx j hj)
        · right
          have hxi : hypWeight b kn x < hypWeight b kn i := hlt
          refine ⟨i, by simp [hit], hie, heq, lt_trans hw hxi, ?_, ?_⟩
          · intro j hj hje
            rcases List.mem_cons.mp hj with rfl | hj
            · exact le_of_lt hxi
            · exact hall j hj hje
          · intro j hj hje hjw
            rcases List.mem_cons.mp hj with rfl | hj
            · exact absurd hjw (ne_of_lt hxi)
            · exact hfirst j hj hje hjw
      · have hstep : stepBest b kn s x = s := by
          unfold stepBest
          rw [if_pos hx, if_neg hw]
        rw [hstep]
        rcases ih hpt s with ⟨heq, hall⟩ | ⟨i, hit, hie, heq, hlt, hall, hfirst⟩
        · left
          refine ⟨heq, ?_⟩
          intro j hj hje
          rcases List.mem_cons.mp hj with rfl | hj
          · exact le_of_not_lt hw
          · exact hall j hj hje
        · right
          refine ⟨i, by simp [hit], hie, heq, hlt, ?_, ?_⟩
          · intro j hj hje
            rcases List.mem_cons.mp hj with rfl | hj
            · exact le_trans (le_of_not_lt hw) (le_of_lt hlt)
            · exact hall j hj hje
          · intro j hj hje hjw
            rcases List.mem_cons.mp hj with rfl | hj
            · exact absurd hjw (ne_of_lt (lt_of_le_of_lt (le_of_not_lt hw) hlt))
            · exact hfirst j hj hje hjw
    · have hstep : stepBest b kn s x = s := by
        unfold stepBest
        rw [if_neg hx]
      rw [hstep]
      rcases ih hpt s with ⟨heq, hall⟩ | ⟨i, hit, hie, heq, hlt, hall, hfirst⟩
      · left
        refine ⟨heq, ?_⟩
        intro j hj hje
        rcases List.mem_cons.mp hj with rfl | hj
        · exact absurd hje hx
        · exact hall j hj hje
      · right
        refine ⟨i, by simp [hit], hie, heq, hlt, ?_, ?_⟩
        · intro j hj hje
          rcases List.mem_cons.mp hj with rfl | hj
          · exact absurd hje hx
          · exact hall j hj hje
        · intro j hj hje hjw
          rcases List.mem_cons.mp hj with rfl | hj
          · exact absurd hje hx
          · exact hfirst j hj hje hjw

theorem compute_move_val (b : List Cell) (kn : Store) :
    compute_move b kn =
      if ((List.range 9).foldl (stepBest b kn) (-1, -1000)).1 < 0 ∨
          ((List.range 9).foldl (stepBest b kn) (-1, -1000)).2 = 0 then
        ((priority.find? (fun q => b.getD q Cell.empty == Cell.empty)).map
          (fun q => (q : Int))).getD
          ((List.range 9).foldl (stepBest b kn) (-1, -1000)).1
      else ((List.range 9).foldl (stepBest b kn) (-1, -1000)).1 := by
  unfold compute_move compute_moveS
  rw [foldl_tryMove]

theorem mem_priority_of_lt (i : Nat) (h : i < 9) : i ∈ priority := by
  interval_cases i <;> decide

theorem lt_of_mem_priority (q : Nat) (h : q ∈ priority) : q < 9 := by
  simp only [priority, List.mem_cons, List.not_mem_nil, or_false] at h
  rcases h with rfl | rfl | rfl | rfl | rfl | rfl | rfl | rfl | rfl <;> norm_num

end TTT1973

namespace TTT1973

/-- Claim C10: on a 9-cell board with at least one Empty cell, `compute_move`
returns a position in [0, 8] whose cell is Empty, for every knowledge store;
on a completely full board it returns the no-move sentinel -1 — so the
driver's concede branch is unreachable when the strategy is invoked on a
non-full board. -/
theorem compute_move_in_range (b : List Cell) (kn : Store) (hb : b.length = 9) :
    ((∃ i, i < 9 ∧ b.getD i Cell.empty = Cell.empty) →
        ∃ m : Nat, m < 9 ∧ compute_move b kn = (m : Int) ∧
          b.getD m Cell.empty = Cell.empty) ∧
      ((∀ i, i < 9 → ¬b.getD i Cell.empty = Cell.empty) →
        compute_move b kn = -1) := by
  constructor
  · rintro ⟨i0, hi09, hi0e⟩
    have hps : ∃ q ∈ priority, (b.getD q Cell.empty == Cell.empty) = true :=
      ⟨i0, mem_priority_of_lt i0 hi09, by simp only [beq_iff_eq]; exact hi0e⟩
    obtain ⟨q, hq⟩ := Option.isSome_iff_exists.mp (List.find?_isSome.mpr hps)
    have hqe : b.getD q Cell.empty = Cell.empty := by
      have h := List.find?_some hq
      simp only [beq_iff_eq] at h
      exact h
    have hq9 : q < 9 := lt_of_mem_priority q (List.mem_of_find?_eq_some hq)
    rcases foldBest_spec b kn (List.range 9) (List.pairwise_lt_range 9)
        (-1, -1000) with ⟨heq, -⟩ | ⟨i, hit, hie, heq, -, -, -⟩
    · refine ⟨q, hq9, ?_, hqe⟩
      rw [compute_move_val, heq,
        if_pos (Or.inl (by norm_num : ((-1 : Int), (-1000 : Int)).1 < 0)), hq]
      rfl
    · have hi9 : i < 9 := List.mem_range.mp hit
      by_cases hw0 : hypWeight b kn i = 0
      · refine ⟨q, hq9, ?_, hqe⟩
        rw [compute_move_val, heq,
          if_pos (Or.inr (hw0 : ((i : Int), hypWeight b kn i).2 = 0)), hq]
        rfl
      · refine ⟨i, hi9, ?_, hie⟩
        rw [compute_move_val, heq, if_neg]
        intro hor
        rcases hor with hneg | hzero
        · exact absurd (hneg : (i : Int) < 0) (by omega)
        · exact hw0 (hzero : hypWeight b kn i = 0)
  · intro hfull
    have hskip : (List.range 9).foldl (stepBest b kn) (-1, -1000) = (-1, -1000) :=
      foldl_stepBest_skip b kn (List.range 9) (-1, -1000)
        (fun i hi => hfull i (List.mem_range.mp hi))
    have hnone : priority.find? (fun q => b.getD q Cell.empty == Cell.empty) =
        none := by
      rw [List.find?_eq_none]
      intro x hx
      have hx9 : x < 9 := lt_of_mem_priority x hx
      simp only [beq_iff_eq]
      exact hfull x hx9
    rw [compute_move_val, hskip,
      if_pos (Or.inl (by norm_num : ((-1 : Int), (-1000 : Int)).1 < 0)), hnone]
    rfl

/-- Witness for claim C10's theorem at a concrete board. -/
theorem compute_move_in_range_witness :
    ∃ m : Nat, m < 9 ∧ compute_move (List.replicate 9 Cell.empty) [] = (m : Int) ∧
      (List.replicate 9 Cell.empty).getD m Cell.empty = Cell.empty :=
  (compute_move_in_range (List.replicate 9 Cell.empty) [] (by decide)).1
    ⟨0, by decide, by decide⟩

/-- Claim C4 (amended): on a board with at least one Empty cell and a store
whose weights lie in the signed-char range, `compute_move` returns the
lowest-indexed legal move whose hypothetical-result weight is the strict
maximum over all legal moves (first maximum kept on ties) whenever that
maximum is nonzero, and it uses the fixed fallback order 4, 0, 2, 6, 8, 1, 3,
5, 7 (center, then corners ascending, then edges ascending, first Empty cell
in that order) if and only if the MAXIMUM candidate weight is exactly 0 — not
only when every candidate's weight is 0. -/
theorem compute_move_amended (b : List Cell) (kn : Store) (hb : b.length = 9)
    (hv : ∀ e ∈ kn, -128 ≤ e.2 ∧ e.2 ≤ 127)
    (hne : ∃ i, i < 9 ∧ b.getD i Cell.empty = Cell.empty) :
    (maxW b kn ≠ 0 →
        ∃ m : Nat, compute_move b kn = (m : Int) ∧ m < 9 ∧
          b.getD m Cell.empty = Cell.empty ∧
          hypWeight b kn m = maxW b kn ∧
          ∀ j, j < 9 → b.getD j Cell.empty = Cell.empty →
            hypWeight b kn j = maxW b kn → m ≤ j) ∧
      (maxW b kn = 0 →
        ∃ p : Nat, priority.find? (fun q => b.getD q Cell.empty == Cell.empty) =
            some p ∧ compute_move b kn = (p : Int)) := by
  obtain ⟨i0, hi09, hi0e⟩ := hne
  rcases foldBest_spec b kn (List.range 9) (List.pairwise_lt_range 9)
      (-1, -1000) with ⟨heq, hall⟩ | ⟨i, hit, hie, heq, hlt, hall, hfirst⟩
  · exfalso
    have h1 := hall i0 (List.mem_range.mpr hi09) hi0e
    have h2 := (lookup_weight_bounds kn (b.set i0 Cell.computer) hv).1
    have h3 : hypWeight b kn i0 ≤ -1000 := h1
    unfold hypWeight at h3
    omega
  · have hi9 : i < 9 := List.mem_range.mp hit
    have hmax : maxW b kn = hypWeight b kn i :=
      maxW_eq b kn i hi9 hie (fun j hj9 hje => hall j (List.mem_range.mpr hj9) hje)
    constructor
    · intro hmz
      have hcm : compute_move b kn = (i : Int) := by
        rw [compute_move_val, heq, if_neg]
        intro hor
        rcases hor with hneg | hzero
        · exact absurd (hneg : (i : Int) < 0) (by omega)
        · exact hmz (hmax.trans (hzero : hypWeight b kn i = 0))
      refine ⟨i, hcm, hi9, hie, hmax.symm, ?_⟩
      intro j hj9 hje hjw
      exact hfirst j (List.mem_range.mpr hj9) hje (hjw.trans hmax)
    · intro hmz
      have hw0 : hypWeight b kn i = 0 := hmax.symm.trans hmz
      have hps : ∃ q ∈ priority, (b.getD q Cell.empty == Cell.empty) = true :=
        ⟨i0, mem_priority_of_lt i0 hi09, by simp only [beq_iff_eq]; exact hi0e⟩
      obtain ⟨q, hq⟩ := Option.isSome_iff_exists.mp (List.find?_isSome.mpr hps)
      refine ⟨q, hq, ?_⟩
      rw [compute_move_val, heq,
        if_pos (Or.inr (hw0 : ((i : Int), hypWeight b kn i).2 = 0)), hq]
      rfl

/-- Witness for claim C4's amended theorem at a concrete board and store. -/
theorem compute_move_amended_witness :
    ∃ p : Nat, priority.find? (fun q =>
        (List.replicate 9 Cell.empty).getD q Cell.empty == Cell.empty) = some p ∧
      compute_move (List.replicate 9 Cell.empty) [] = (p : Int) :=
  (compute_move_amended (List.replicate 9 Cell.empty) [] (by decide)
    (by intro e he; exact absurd he (List.not_mem_nil e))
    ⟨0, by decide, by decide⟩).2 (by decide)

end TTT1973
